import Mathlib

/-!
Verification development for the FABADA stream-denoising script
(examples/streamclean_rx_buffer.py).

The function fabada1x is embedded shallowly over the rationals:
NumPy arrays become lists of rationals, elementwise array arithmetic
becomes List.zipWith / List.map, and the iterative smoothing loop
becomes an explicit state-machine with a fuel bound.  The transcendental
numeric kernels used by the script (numpy.exp, numpy.sqrt, numpy.pi and
scipy.stats.chi2.pdf) are external library functions, not code of this
repository; they are abstracted as a parameter structure Kernels, so all
structural statements are proved for every choice of kernels, and
counterexamples instantiate them with concrete computable functions.
Division is exact rational division; every run considered by a theorem
keeps all divisors nonzero, matching the floating-point code on inputs
whose variance estimates are nonzero.
-/

set_option maxRecDepth 8000

set_option allowUnsafeReducibility true

attribute [local semireducible] Rat.mul Rat.add Rat.sub Rat.div Rat.inv Rat.neg

namespace Fabada

/-- Numeric kernels of the external libraries: fexp stands for numpy.exp,
fsqrt for numpy.sqrt, fpi for numpy.pi and fchi2pdf for
scipy.stats.chi2.pdf applied to a value and a degrees-of-freedom count.
They are parameters of the embedding because the repository does not
define them. -/
structure Kernels where
  fexp : ℚ → ℚ
  fsqrt : ℚ → ℚ
  fpi : ℚ
  fchi2pdf : ℚ → ℕ → ℚ

/-- Even-indexed elements of a list: data[0::2] in the script (line 71),
the left channel of an interleaved stereo block. -/
def evens {α : Type} : List α → List α
  | [] => []
  | [a] => [a]
  | a :: _ :: t => a :: evens t

/-- Odd-indexed elements of a list: data[1::2] in the script (line 71),
the right channel of an interleaved stereo block. -/
def odds {α : Type} : List α → List α
  | [] => []
  | [_] => []
  | _ :: b :: t => b :: odds t

/-- Interleave two equal-length lists, as numpy.column_stack followed by
ravel does on line 182 of the script. -/
def interleave {α : Type} : List α → List α → List α
  | a :: as, b :: bs => a :: b :: interleave as bs
  | _, _ => []

/-- Arithmetic mean of a list, as numpy.mean. -/
def mean (l : List ℚ) : ℚ := l.sum / l.length

/-- Population variance of a list, as numpy.var with its default
zero-delta degrees of freedom. -/
def npVar (l : List ℚ) : ℚ := mean (l.map (fun x => (x - mean l) ^ 2))

/-- Boundary padding of one channel (lines 78-84): prepend the average of
the first two samples, append the average of the last two samples. -/
def pad (c : List ℚ) : List ℚ :=
  (c.getD 0 0 / 2 + c.getD 1 0 / 2) ::
    (c ++ [c.getD (c.length - 1) 0 / 2 + c.getD (c.length - 2) 0 / 2])

/-- Three-entry zip used for the triplet averages. -/
def zip3 {α β γ δ : Type} (f : α → β → γ → δ) : List α → List β → List γ → List δ
  | a :: as, b :: bs, c :: cs => f a b c :: zip3 f as bs cs
  | _, _, _ => []

/-- Four-entry zip used for elementwise formulas over four arrays. -/
def zip4 {α β γ δ ε : Type} (f : α → β → γ → δ → ε) :
    List α → List β → List γ → List δ → List ε
  | a :: as, b :: bs, c :: cs, d :: ds => f a b c d :: zip4 f as bs cs ds
  | _, _, _, _ => []

/-- Triplet averages over a padded channel (lines 87-90): entry i is
padded[i] + padded[i+1] + padded[i+2] / 3, with only the third term
divided by three, exactly as the script computes it. -/
def trip (p : List ℚ) : List ℚ :=
  zip3 (fun i j k => i + j + k / 3) p p.tail p.tail.tail

/-- Per-channel variance estimate applied to an already padded channel
(lines 87-109): triplet averages, absolute residuals against the mean
of the triplet averages (the mean array is materialised with the fixed
buffer size 32768, and the zip truncates to the shorter length exactly
as Python zip does), then each residual is scaled by the population
variance of the residuals. -/
def estimate (p : List ℚ) : List ℚ :=
  let t := trip p
  let res := List.zipWith (fun i j => |i - j|) t (List.replicate 32768 (mean t))
  res.map (fun x => x * npVar res)

/-- Noise-variance estimate of one channel as the specification of
NoiseModelEstimator describes it: pad the channel, then run the
per-channel estimate. -/
def chanVariance (c : List ℚ) : List ℚ := estimate (pad c)

/-- The concatenated per-sample variance vector computed by fabada1x
(lines 78-110), with the same crossed intermediate names as the source:
data_betar is computed from the left channel padding and data_betal
from the right channel padding, and the concatenation puts the
r-suffixed vector first. -/
def dataVariance (block : List ℚ) : List ℚ :=
  let dleft := evens block
  let dright := odds block
  let data_alphal_padded := pad dleft
  let data_alphar_padded := pad dright
  let data_betar := trip data_alphal_padded
  let data_betal := trip data_alphar_padded
  let x10r := mean data_betar
  let x10l := mean data_betal
  let data_variance_residuesr :=
    List.zipWith (fun i j => |i - j|) data_betar (List.replicate 32768 x10r)
  let data_variance_residuesl :=
    List.zipWith (fun i j => |i - j|) data_betal (List.replicate 32768 x10l)
  let variance5r := npVar data_variance_residuesr
  let variance5l := npVar data_variance_residuesl
  let data_variancer := data_variance_residuesr.map (fun x => x * variance5r)
  let data_variancel := data_variance_residuesl.map (fun x => x * variance5l)
  data_variancer ++ data_variancel

/-- Truncation toward zero of a rational, the effect of a C float-to-int
cast on an in-range value, as numpy astype performs elementwise. -/
def truncQ (x : ℚ) : ℤ := x.num.tdiv x.den

/-- Reduction of an integer into the signed 16-bit range by wrapping
modulo 2 to the 16, the de-facto behaviour of numpy astype(int16) on
out-of-range values. -/
def wrap16 (z : ℤ) : ℤ := (z + 32768) % 65536 - 32768

/-- Conversion of one sample to int16 as astype(numpy.int16) on line 182:
truncate toward zero, then wrap into the representable range. -/
def quantize (x : ℚ) : ℤ := wrap16 (truncQ x)

/-- Weighted three-point neighbour average used as the prior mean
(lines 135-141): interior entries average themselves with both
neighbours divided by three, the two endpoints average with their single
neighbour divided by two, reproducing the in-place slice updates of the
script for arrays of length at least two. -/
def priorMean (pm : List ℚ) : List ℚ :=
  let n := pm.length
  (List.range n).map fun i =>
    if n = 1 then pm.getD 0 0 / 4
    else if i = 0 then (pm.getD 0 0 + pm.getD 1 0) / 2
    else if i = n - 1 then (pm.getD (n - 2) 0 + pm.getD (n - 1) 0) / 2
    else (pm.getD (i - 1) 0 + pm.getD i 0 + pm.getD (i + 1) 0) / 3

/-- Harmonic combination of the prior variance with the data variance,
the Bayes update of line 145. -/
def bayesVariance (pv dv : ℚ) : ℚ := 1 / (1 / pv + 1 / dv)

/-- Mutable state of the smoothing loop of fabada1x (lines 113-124):
the posterior pair, the evidence array, the scalar convergence trackers
and the ensemble accumulators, plus the converged flag of the while
loop. -/
structure SmootherState where
  posterior_mean : List ℚ
  posterior_variance : List ℚ
  evidence : List ℚ
  chi2_pdf : ℚ
  chi2_data : ℚ
  iteration : ℕ
  chi2_pdf_derivative : ℚ
  chi2_data_min : ℚ
  bayesian_weight : List ℚ
  bayesian_model : List ℚ
  converged : Bool
deriving Repr, DecidableEq

/-- Initial evidence of iteration zero (lines 115-118), the Gaussian
likelihood of a zero-mean residual under the assumed noise variance,
written with the same literal zeros as the source. -/
def initialEvidence (K : Kernels) (dv : List ℚ) : List ℚ :=
  dv.map fun v =>
    K.fexp (-((0 - K.fsqrt v) ^ 2) / (2 * (0 + v))) / K.fsqrt (2 * K.fpi * (0 + v))

/-- State before the first loop iteration (lines 113-124).  The scalar
zero that Python assigns to the ensemble accumulators is materialised as
a zero array of the data length, which is what the first broadcast
addition turns it into. -/
def initState (data dv ie : List ℚ) : SmootherState :=
  { posterior_mean := data
    posterior_variance := dv
    evidence := ie
    chi2_pdf := 0
    chi2_data := (data.length : ℚ)
    iteration := 0
    chi2_pdf_derivative := 0
    chi2_data_min := (data.length : ℚ)
    bayesian_weight := List.replicate data.length 0
    bayesian_model := List.replicate data.length 0
    converged := false }

/-- The body of one pass of the while loop of fabada1x (lines 128-166),
before the convergence test: priors, Bayes update, evidence, chi-square
trackers, ensemble accumulation, and the iteration-one recording of
chi2_data_min.  The previous chi-square derivative and the previous mean
evidence, which the convergence test also needs, stay available in the
argument state. -/
def iterState (K : Kernels) (data dv : List ℚ) (s : SmootherState) : SmootherState :=
  let iteration := s.iteration + 1
  let prior_mean := priorMean s.posterior_mean
  let prior_variance := s.posterior_variance
  let posterior_variance := List.zipWith bayesVariance prior_variance dv
  let posterior_mean :=
    List.zipWith (fun a b => a * b)
      (zip4 (fun m v d w => m / v + d / w) prior_mean prior_variance data dv)
      posterior_variance
  let evidence :=
    zip4 (fun m d v w =>
        K.fexp (-((m - d) ^ 2) / (2 * (v + w))) / K.fsqrt (2 * K.fpi * (v + w)))
      prior_mean data prior_variance dv
  let chi2_data := (zip3 (fun d m w => (d - m) ^ 2 / w) data posterior_mean dv).sum
  let chi2_pdf := K.fchi2pdf chi2_data data.length
  let model_weight := evidence.map (fun e => e * chi2_data)
  { posterior_mean := posterior_mean
    posterior_variance := posterior_variance
    evidence := evidence
    chi2_pdf := chi2_pdf
    chi2_data := chi2_data
    iteration := iteration
    chi2_pdf_derivative := chi2_pdf - s.chi2_pdf
    chi2_data_min := if iteration = 1 then chi2_data else s.chi2_data_min
    bayesian_weight := List.zipWith (fun a b => a + b) s.bayesian_weight model_weight
    bayesian_model :=
      List.zipWith (fun a b => a + b) s.bayesian_model
        (List.zipWith (fun a b => a * b) model_weight posterior_mean)
    converged := false }

/-- Folding in the iteration-zero model on the transition to the
Converged state (lines 175-178): the initial evidence weighted by the
recorded chi2_data_min is added to both accumulators, the model side
multiplied by the raw data. -/
def foldZero (data ie : List ℚ) (t : SmootherState) : SmootherState :=
  let model_weight0 := ie.map (fun e => e * t.chi2_data_min)
  { t with
    bayesian_weight := List.zipWith (fun a b => a + b) t.bayesian_weight model_weight0
    bayesian_model :=
      List.zipWith (fun a b => a + b) t.bayesian_model
        (List.zipWith (fun a b => a * b) model_weight0 data)
    converged := true }

/-- One pass of the while loop of fabada1x (lines 126-178).  A converged
state is left unchanged, mirroring loop exit.  Otherwise the body runs
and the convergence test is applied: chi-square above the data size with
nonnegative second derivative of its density and falling mean evidence,
or more than 128 iterations; on success the iteration-zero model is
folded in. -/
def step (K : Kernels) (data dv ie : List ℚ) (s : SmootherState) : SmootherState :=
  if s.converged then s
  else
    let t := iterState K data dv s
    if ((data.length : ℚ) < t.chi2_data ∧
          0 ≤ t.chi2_pdf_derivative - s.chi2_pdf_derivative) ∧
        mean t.evidence - mean s.evidence < 0 ∨ 128 < t.iteration
    then foldZero data ie t
    else t

/-- Fuel-bounded run of the while loop: stop as soon as the converged
flag is set, otherwise take a step and continue.  The iteration cap of
the loop guarantees that fuel 129 is never exhausted early. -/
def runAux (K : Kernels) (data dv ie : List ℚ) : ℕ → SmootherState → SmootherState
  | 0, s => s
  | f + 1, s =>
      if s.converged then s else runAux K data dv ie f (step K data dv ie s)

/-- Complete state of the smoothing loop on a block: channels are
deinterleaved, concatenated left first, the variance vector is computed,
and the loop runs to convergence. -/
def smootherRun (K : Kernels) (block : List ℚ) : SmootherState :=
  let data := evens block ++ odds block
  let dv := dataVariance block
  let ie := initialEvidence K dv
  runAux K data dv ie 129 (initState data dv ie)

/-- The full fabada1x pipeline (lines 64-183): run the smoothing loop,
divide the accumulated ensemble, split the concatenated result back into
its two halves, interleave them and convert to int16. -/
def fabada1x (K : Kernels) (block : List ℚ) : List ℤ :=
  let r := smootherRun K block
  let bayes := List.zipWith (fun a b => a / b) r.bayesian_model r.bayesian_weight
  (interleave (bayes.take (bayes.length / 2)) (bayes.drop (bayes.length / 2))).map
    quantize

/-- ChannelCodec.split: deinterleave a block into its two channels
(line 71). -/
def splitCodec (block : List ℚ) : List ℚ × List ℚ := (evens block, odds block)

/-- ChannelCodec.merge: interleave two channels back into one block and
convert every sample to int16 (lines 182-183). -/
def mergeCodec (l r : List ℚ) : List ℤ := (interleave l r).map quantize

/-! ### Scalar facts about the int16 conversion -/

/-- On nonnegative rationals, truncation toward zero is the floor. -/
lemma truncQ_eq_floor {x : ℚ} (h : 0 ≤ x) : truncQ x = ⌊x⌋ := by
  unfold truncQ
  rw [Int.tdiv_eq_ediv (Rat.num_nonneg.mpr h) (by positivity), Rat.floor_def]

/-- On negative rationals, truncation toward zero is the ceiling. -/
lemma truncQ_eq_ceil {x : ℚ} (h : x < 0) : truncQ x = ⌈x⌉ := by
  have hx : (0 : ℚ) ≤ -x := by linarith
  have h1 : truncQ x = -truncQ (-x) := by
    unfold truncQ
    rw [Rat.neg_num, Rat.neg_den, Int.neg_tdiv, neg_neg]
  rw [h1, truncQ_eq_floor hx, Int.floor_neg, neg_neg]

/-- Truncation toward zero moves a rational by strictly less than one. -/
lemma truncQ_dist_lt_one (x : ℚ) : |((truncQ x : ℤ) : ℚ) - x| < 1 := by
  rcases le_or_lt 0 x with h | h
  · rw [truncQ_eq_floor h, abs_sub_lt_iff]
    constructor
    · linarith [Int.floor_le x]
    · linarith [Int.sub_one_lt_floor x]
  · rw [truncQ_eq_ceil h, abs_sub_lt_iff]
    constructor
    · linarith [Int.ceil_lt_add_one x]
    · linarith [Int.le_ceil x]

/-- Truncation keeps a rational of the 16-bit signed range inside
that range. -/
lemma truncQ_mem_range {x : ℚ} (h1 : -32768 ≤ x) (h2 : x ≤ 32767) :
    -32768 ≤ truncQ x ∧ truncQ x ≤ 32767 := by
  rcases le_or_lt 0 x with h | h
  · rw [truncQ_eq_floor h]
    constructor
    · have := Int.le_floor.mpr (by push_cast; linarith : ((-32768 : ℤ) : ℚ) ≤ x)
      linarith
    · have := Int.floor_le_floor h2
      rw [show ((32767 : ℚ)) = ((32767 : ℤ) : ℚ) by norm_num, Int.floor_intCast] at this
      linarith
  · rw [truncQ_eq_ceil h]
    constructor
    · have := Int.ceil_le_ceil h1
      rw [show ((-32768 : ℚ)) = ((-32768 : ℤ) : ℚ) by norm_num, Int.ceil_intCast] at this
      linarith
    · have := Int.ceil_le.mpr (by push_cast; linarith : x ≤ ((32767 : ℤ) : ℚ))
      linarith

/-- Wrapping is the identity on the 16-bit signed range. -/
lemma wrap16_eq_self {z : ℤ} (h1 : -32768 ≤ z) (h2 : z ≤ 32767) : wrap16 z = z := by
  unfold wrap16
  rw [Int.emod_eq_of_lt (by omega) (by omega)]
  omega

/-- The wrapped value always lies in the 16-bit signed range. -/
lemma wrap16_mem_range (z : ℤ) : -32768 ≤ wrap16 z ∧ wrap16 z ≤ 32767 := by
  unfold wrap16
  have h1 := Int.emod_nonneg (z + 32768) (by norm_num : (65536 : ℤ) ≠ 0)
  have h2 := Int.emod_lt_of_pos (z + 32768) (by norm_num : (0 : ℤ) < 65536)
  omega

/-- On the 16-bit signed range the int16 conversion is plain truncation. -/
lemma quantize_eq_truncQ {x : ℚ} (h1 : -32768 ≤ x) (h2 : x ≤ 32767) :
    quantize x = truncQ x := by
  obtain ⟨ha, hb⟩ := truncQ_mem_range h1 h2
  exact wrap16_eq_self ha hb

/-! ### Deinterleaving and interleaving -/

/-- Splitting into even and odd positions and interleaving back is the
identity on lists of even length. -/
lemma interleave_evens_odds {α : Type} :
    ∀ b : List α, b.length % 2 = 0 → interleave (evens b) (odds b) = b
  | [], _ => rfl
  | [_], h => by simp at h
  | a :: c :: t, h => by
      have ht : t.length % 2 = 0 := by
        have h2 : (t.length + 1 + 1) % 2 = 0 := by simpa using h
        omega
      simp only [evens, odds, interleave]
      rw [interleave_evens_odds t ht]

/-- Interleaving two equal-length lists doubles the length. -/
lemma interleave_length {α : Type} :
    ∀ (l r : List α), l.length = r.length →
      (interleave l r).length = 2 * l.length
  | [], [], _ => rfl
  | [], _ :: _, h => by simp at h
  | _ :: _, [], h => by simp at h
  | _ :: l, _ :: r, h => by
      have h' : l.length = r.length := by simpa using h
      simp [interleave, interleave_length l r h']
      omega

/-- Entries of an interleaved list: even positions come from the first
list, odd positions from the second. -/
lemma interleave_getD {α : Type} (d : α) :
    ∀ (l r : List α), l.length = r.length → ∀ i, i < l.length →
      (interleave l r).getD (2 * i) d = l.getD i d ∧
        (interleave l r).getD (2 * i + 1) d = r.getD i d
  | [], _, _, i, hi => by simp at hi
  | _ :: _, [], h, _, _ => by simp at h
  | a :: l, b :: r, h, 0, _ => by simp [interleave]
  | a :: l, b :: r, h, i + 1, hi => by
      have h' : l.length = r.length := by simpa using h
      have hi' : i < l.length := by simpa using hi
      have := interleave_getD d l r h' i hi'
      simpa [interleave, show 2 * (i + 1) = 2 * i + 1 + 1 by ring] using this

/-! ### Length and entry lemmas for the estimator -/

/-- Length of a three-entry zip. -/
lemma zip3_length {α β γ δ : Type} (f : α → β → γ → δ) :
    ∀ (as : List α) (bs : List β) (cs : List γ),
      (zip3 f as bs cs).length = min as.length (min bs.length cs.length)
  | [], _, _ => by simp [zip3]
  | _ :: _, [], _ => by simp [zip3]
  | _ :: _, _ :: _, [] => by simp [zip3]
  | a :: as, b :: bs, c :: cs => by
      simp [zip3, zip3_length f as bs cs]
      omega

/-- Entries of a three-entry zip. -/
lemma zip3_getElem {α β γ δ : Type} (f : α → β → γ → δ) :
    ∀ (as : List α) (bs : List β) (cs : List γ) (i : ℕ)
      (h : i < (zip3 f as bs cs).length) (ha : i < as.length)
      (hb : i < bs.length) (hc : i < cs.length),
      (zip3 f as bs cs)[i] = f as[i] bs[i] cs[i]
  | a :: as, b :: bs, c :: cs, 0, _, _, _, _ => rfl
  | a :: as, b :: bs, c :: cs, i + 1, h, ha, hb, hc => by
      simpa [zip3] using
        zip3_getElem f as bs cs i (by simpa [zip3] using h)
          (by simpa using ha) (by simpa using hb) (by simpa using hc)

/-- The triplet-average list is two entries shorter than the padded
channel it is computed from. -/
lemma trip_length (p : List ℚ) : (trip p).length = p.length - 2 := by
  unfold trip
  rw [zip3_length]
  rcases p with _ | ⟨a, _ | ⟨b, t⟩⟩ <;> simp <;> omega

/-- The padded channel is two entries longer than the channel. -/
lemma pad_length (c : List ℚ) : (pad c).length = c.length + 2 := by
  simp [pad]

/-- Every absolute-difference zip entry is nonnegative. -/
lemma zipWith_absdiff_nonneg :
    ∀ {l l' : List ℚ}, ∀ x ∈ List.zipWith (fun i j => |i - j|) l l', 0 ≤ x
  | [], _, x, hx => by simp at hx
  | _ :: _, [], x, hx => by simp at hx
  | a :: l, b :: l', x, hx => by
      rcases (by simpa using hx : x = |a - b| ∨ x ∈ _) with h | h
      · rw [h]; exact abs_nonneg _
      · exact zipWith_absdiff_nonneg x h

/-- The population variance of a list is nonnegative. -/
lemma npVar_nonneg (l : List ℚ) : 0 ≤ npVar l := by
  unfold npVar mean
  apply div_nonneg _ (by positivity)
  apply List.sum_nonneg
  intro x hx
  obtain ⟨y, _, rfl⟩ := List.mem_map.mp hx
  positivity

/-- Claim C9: BoundaryPadder.pad maps a channel of length n at least two
to a sequence of length n plus two whose interior agrees with the input
exactly, whose first element is the mean of the first two samples and
whose last element is the mean of the last two samples. -/
theorem C9_pad_spec (c : List ℚ) (h : 2 ≤ c.length) :
    (pad c).length = c.length + 2 ∧
    (∀ i < c.length, (pad c).getD (i + 1) 0 = c.getD i 0) ∧
    (pad c).getD 0 0 = (c.getD 0 0 + c.getD 1 0) / 2 ∧
    (pad c).getD (c.length + 1) 0 =
      (c.getD (c.length - 1) 0 + c.getD (c.length - 2) 0) / 2 := by
  refine ⟨pad_length c, ?_, ?_, ?_⟩
  · intro i hi
    show (c ++ [_]).getD i 0 = c.getD i 0
    exact List.getD_append _ _ _ _ hi
  · show c.getD 0 0 / 2 + c.getD 1 0 / 2 = _
    ring
  · show (c ++ [c.getD (c.length - 1) 0 / 2 + c.getD (c.length - 2) 0 / 2]).getD
        c.length 0 = _
    rw [List.getD_eq_getElem _ _ (by simp),
      List.getElem_append_right (le_refl c.length)]
    simp
    ring

/-- Witness for C9 at the concrete channel [1, 2, 3]. -/
theorem C9_pad_spec_witness :
    (pad [(1 : ℚ), 2, 3]).length = [(1 : ℚ), 2, 3].length + 2 ∧
    (∀ i < [(1 : ℚ), 2, 3].length,
      (pad [(1 : ℚ), 2, 3]).getD (i + 1) 0 = [(1 : ℚ), 2, 3].getD i 0) ∧
    (pad [(1 : ℚ), 2, 3]).getD 0 0 =
      ([(1 : ℚ), 2, 3].getD 0 0 + [(1 : ℚ), 2, 3].getD 1 0) / 2 ∧
    (pad [(1 : ℚ), 2, 3]).getD ([(1 : ℚ), 2, 3].length + 1) 0 =
      ([(1 : ℚ), 2, 3].getD ([(1 : ℚ), 2, 3].length - 1) 0 +
        [(1 : ℚ), 2, 3].getD ([(1 : ℚ), 2, 3].length - 2) 0) / 2 :=
  C9_pad_spec [1, 2, 3] (by decide)

/-- Length of the estimate of a padded channel. -/
lemma estimate_length (p : List ℚ) (h32 : p.length - 2 ≤ 32768) :
    (estimate p).length = p.length - 2 := by
  unfold estimate
  rw [List.length_map, List.length_zipWith, trip_length, List.length_replicate,
    Nat.min_eq_left h32]

/-- Claim C5: on a padded channel of original length n (at most the
fixed buffer size), the noise estimator returns a list of length exactly
n, every entry nonnegative, and entry i equals the absolute deviation of
the triplet average padded[i] + padded[i+1] + padded[i+2]/3 from the
mean of the triplet averages, scaled by the population variance of those
absolute deviations. -/
theorem C5_estimate_spec (p : List ℚ) (n : ℕ) (hp : p.length = n + 2)
    (h32 : n ≤ 32768) :
    (estimate p).length = n ∧
    (∀ x ∈ estimate p, 0 ≤ x) ∧
    ∀ i < n, (estimate p).getD i 0 =
      |(p.getD i 0 + p.getD (i + 1) 0 + p.getD (i + 2) 0 / 3) - mean (trip p)| *
        npVar (List.zipWith (fun i j => |i - j|) (trip p)
          (List.replicate 32768 (mean (trip p)))) := by
  have hn : p.length - 2 = n := by omega
  have hlen : (estimate p).length = n := by
    rw [estimate_length p (by omega)]; exact hn
  have htl : (trip p).length = n := by rw [trip_length, hn]
  have hres : (List.zipWith (fun i j => |i - j|) (trip p)
      (List.replicate 32768 (mean (trip p)))).length = n := by
    rw [List.length_zipWith, htl, List.length_replicate, Nat.min_eq_left h32]
  refine ⟨hlen, ?_, ?_⟩
  · intro x hx
    obtain ⟨y, hy, rfl⟩ := List.mem_map.mp hx
    exact mul_nonneg (zipWith_absdiff_nonneg y hy) (npVar_nonneg _)
  · intro i hi
    have hip : i < p.length := by omega
    have hip1 : i + 1 < p.length := by omega
    have hip2 : i + 2 < p.length := by omega
    have hit : i < (trip p).length := by omega
    have hires : i < (List.zipWith (fun i j => |i - j|) (trip p)
        (List.replicate 32768 (mean (trip p)))).length := by omega
    have htrip : (trip p)[i] = p[i] + p[i + 1] + p[i + 2] / 3 := by
      unfold trip
      rw [zip3_getElem _ p p.tail p.tail.tail i (by simpa [trip] using hit)
        hip (by simp; omega) (by simp; omega)]
      rw [List.getElem_tail, List.getElem_tail, List.getElem_tail]
    rw [List.getD_eq_getElem _ _ (by omega : i < (estimate p).length)]
    unfold estimate
    rw [List.getElem_map, List.getElem_zipWith, List.getElem_replicate, htrip,
      List.getD_eq_getElem _ _ hip, List.getD_eq_getElem _ _ hip1,
      List.getD_eq_getElem _ _ hip2]

/-- Witness for C5 at the concrete padded channel [1, 2, 4, 8] of
original length two. -/
theorem C5_estimate_spec_witness :
    (estimate [(1 : ℚ), 2, 4, 8]).length = 2 ∧
    (∀ x ∈ estimate [(1 : ℚ), 2, 4, 8], 0 ≤ x) ∧
    ∀ i < 2, (estimate [(1 : ℚ), 2, 4, 8]).getD i 0 =
      |([(1 : ℚ), 2, 4, 8].getD i 0 + [(1 : ℚ), 2, 4, 8].getD (i + 1) 0 +
          [(1 : ℚ), 2, 4, 8].getD (i + 2) 0 / 3) - mean (trip [(1 : ℚ), 2, 4, 8])| *
        npVar (List.zipWith (fun i j => |i - j|) (trip [(1 : ℚ), 2, 4, 8])
          (List.replicate 32768 (mean (trip [(1 : ℚ), 2, 4, 8])))) :=
  C5_estimate_spec [1, 2, 4, 8] 2 (by decide) (by decide)

/-- Length of the per-channel variance estimate. -/
lemma chanVariance_length (c : List ℚ) (h32 : c.length ≤ 32768) :
    (chanVariance c).length = c.length := by
  unfold chanVariance
  rw [estimate_length _ (by rw [pad_length]; omega), pad_length]
  omega

/-- The variance vector of a block is the per-channel estimate of the
left channel followed by the per-channel estimate of the right channel;
the crossed r and l suffixes of the intermediate names cancel in the
concatenation order. -/
lemma dataVariance_eq_append (block : List ℚ) :
    dataVariance block =
      chanVariance (evens block) ++ chanVariance (odds block) := rfl

/-- Claim C10: the concatenated variance vector is channel-aligned with
the concatenated data vector of the smoother: its first half (paired
with the left-channel samples) is the left-channel estimate and its
second half the right-channel estimate, despite the swapped r and l
names of the intermediate variables. -/
theorem C10_variance_alignment (block : List ℚ)
    (h32 : (evens block).length ≤ 32768) :
    dataVariance block =
      chanVariance (evens block) ++ chanVariance (odds block) ∧
    (dataVariance block).take (evens block).length = chanVariance (evens block) ∧
    (dataVariance block).drop (evens block).length = chanVariance (odds block) := by
  refine ⟨dataVariance_eq_append block, ?_, ?_⟩
  · rw [dataVariance_eq_append block, ← chanVariance_length (evens block) h32,
      List.take_left]
  · rw [dataVariance_eq_append block, ← chanVariance_length (evens block) h32,
      List.drop_left]

/-- Witness for C10 at a concrete eight-sample block. -/
theorem C10_variance_alignment_witness :
    dataVariance [(3 : ℚ), 1, 5, 9, 2, 7, 6, 4] =
      chanVariance (evens [(3 : ℚ), 1, 5, 9, 2, 7, 6, 4]) ++
        chanVariance (odds [(3 : ℚ), 1, 5, 9, 2, 7, 6, 4]) ∧
    (dataVariance [(3 : ℚ), 1, 5, 9, 2, 7, 6, 4]).take
        (evens [(3 : ℚ), 1, 5, 9, 2, 7, 6, 4]).length =
      chanVariance (evens [(3 : ℚ), 1, 5, 9, 2, 7, 6, 4]) ∧
    (dataVariance [(3 : ℚ), 1, 5, 9, 2, 7, 6, 4]).drop
        (evens [(3 : ℚ), 1, 5, 9, 2, 7, 6, 4]).length =
      chanVariance (odds [(3 : ℚ), 1, 5, 9, 2, 7, 6, 4]) :=
  C10_variance_alignment [(3 : ℚ), 1, 5, 9, 2, 7, 6, 4] (by decide)

/-! ### The codec round trip and the int16 conversion -/

/-- Claim C6: on an even-length block whose samples lie in the 16-bit
signed range, splitting into channels and merging back reproduces the
block up to integer quantization: every output sample is the truncation
of the corresponding input sample, which moves each value by strictly
less than one. -/
theorem C6_split_merge_roundtrip (b : List ℚ) (h2 : b.length % 2 = 0)
    (hr : ∀ x ∈ b, -32768 ≤ x ∧ x ≤ 32767) :
    mergeCodec (evens b) (odds b) = b.map quantize ∧
    ∀ x ∈ b, quantize x = truncQ x ∧ |((quantize x : ℤ) : ℚ) - x| < 1 := by
  constructor
  · unfold mergeCodec
    rw [interleave_evens_odds b h2]
  · intro x hx
    obtain ⟨ha, hb⟩ := hr x hx
    have hq : quantize x = truncQ x := quantize_eq_truncQ ha hb
    exact ⟨hq, by rw [hq]; exact truncQ_dist_lt_one x⟩

/-- Witness for C6 at the concrete block [1, -2, 3, -4]. -/
theorem C6_split_merge_roundtrip_witness :
    mergeCodec (evens [(1 : ℚ), -2, 3, -4]) (odds [(1 : ℚ), -2, 3, -4]) =
      [(1 : ℚ), -2, 3, -4].map quantize ∧
    ∀ x ∈ [(1 : ℚ), -2, 3, -4], quantize x = truncQ x ∧
      |((quantize x : ℤ) : ℚ) - x| < 1 :=
  C6_split_merge_roundtrip [1, -2, 3, -4] (by decide) (by decide)

/-- Saturating round-to-nearest conversion as the specification words of
ChannelCodec.merge describe it: values beyond the representable 16-bit
signed range saturate at the range bounds, values inside it go to the
nearest representable integer.  This definition follows the
specification, for comparison with the source conversion. -/
def clampRound (x : ℚ) : ℤ :=
  if x < -32768 then -32768
  else if 32767 < x then 32767
  else (x + 1 / 2).num.fdiv (x + 1 / 2).den

/-- Claim C7 fails on the code: merging the single-sample channels
[40000] and [0] produces -25536, the two-complement wrap of 40000,
rather than the saturated value 32767 the claim prescribes. -/
theorem C7_counterexample :
    mergeCodec [(40000 : ℚ)] [0] = [-25536, 0] ∧
    clampRound 40000 = 32767 ∧
    mergeCodec [(40000 : ℚ)] [0] ≠ [clampRound 40000, clampRound 0] := by
  refine ⟨by decide, by decide, by decide⟩

/-- Claim C7 amended: merge interleaves the two channels and converts
every sample by truncation toward zero followed by wrapping modulo
2 to the 16 into the signed range; every output sample lies in the
representable range, but out-of-range inputs wrap instead of
saturating. -/
theorem C7_merge_quantization (l r : List ℚ) (h : l.length = r.length) :
    (∀ i < l.length,
      (mergeCodec l r).getD (2 * i) 0 = wrap16 (truncQ (l.getD i 0)) ∧
      (mergeCodec l r).getD (2 * i + 1) 0 = wrap16 (truncQ (r.getD i 0))) ∧
    ∀ z ∈ mergeCodec l r, -32768 ≤ z ∧ z ≤ 32767 := by
  constructor
  · intro i hi
    have hlen := interleave_length l r h
    have h2i : 2 * i < (interleave l r).length := by omega
    have h2i1 : 2 * i + 1 < (interleave l r).length := by omega
    have hir : i < r.length := by omega
    obtain ⟨he, ho⟩ := interleave_getD (0 : ℚ) l r h i hi
    constructor
    · show ((interleave l r).map quantize).getD (2 * i) 0 = _
      rw [List.getD_eq_getElem _ _ (by simpa using h2i), List.getElem_map,
        ← List.getD_eq_getElem _ _ h2i, he, List.getD_eq_getElem _ _ hi]
      rfl
    · show ((interleave l r).map quantize).getD (2 * i + 1) 0 = _
      rw [List.getD_eq_getElem _ _ (by simpa using h2i1), List.getElem_map,
        ← List.getD_eq_getElem _ _ h2i1, ho, List.getD_eq_getElem _ _ hir]
      rfl
  · intro z hz
    obtain ⟨x, _, rfl⟩ := List.mem_map.mp hz
    exact wrap16_mem_range (truncQ x)

/-- Witness for the amended C7 at the channels [40000, 5/2] and
[0, -3]. -/
theorem C7_merge_quantization_witness :
    (∀ i < [(40000 : ℚ), 5 / 2].length,
      (mergeCodec [(40000 : ℚ), 5 / 2] [0, -3]).getD (2 * i) 0 =
        wrap16 (truncQ ([(40000 : ℚ), 5 / 2].getD i 0)) ∧
      (mergeCodec [(40000 : ℚ), 5 / 2] [0, -3]).getD (2 * i + 1) 0 =
        wrap16 (truncQ ([(0 : ℚ), -3].getD i 0))) ∧
    ∀ z ∈ mergeCodec [(40000 : ℚ), 5 / 2] [0, -3], -32768 ≤ z ∧ z ≤ 32767 :=
  C7_merge_quantization [40000, 5 / 2] [0, -3] (by decide)

/-- Claim C2 names its failing input: on a constant block every triplet
average equals their mean, so the estimated variance is zero at every
sample position, and the smoothing loop then divides by zero with no
substitution of the raw observation anywhere in fabada1x. -/
theorem C2_constant_block_zero_variance :
    dataVariance (List.replicate 8 100) = List.replicate 8 0 := by decide


/-! ### Concrete kernels and blocks used by witnesses and counterexamples -/

/-- A concrete computable instantiation of the numeric kernels: a step
function with one threshold for the exponential, the constant one for
the square root, three for pi and the constant zero for the chi-square
density.  Chosen so that the runs examined below converge after the
first iteration. -/
def Kdemo : Kernels :=
  { fexp := fun q => if q ≤ -(1 : ℚ) / 4 then 1 / 2 else 1
    fsqrt := fun _ => 1
    fpi := 3
    fchi2pdf := fun _ _ => 0 }

/-- Eight-sample stereo block: both channels alternate between 24 and
-24. -/
def B1 : List ℚ := [24, 24, -24, -24, 24, 24, -24, -24]

/-- The same block as B1 except that the first right-channel sample is
raised from 24 to 48; the left channel is untouched. -/
def B2 : List ℚ := [24, 48, -24, -24, 24, 24, -24, -24]

/-- Concrete kernels for the chi-square analysis: the exponential is one
everywhere except at a single argument value that occurs only in the
second iteration of the run on block B3, so that run converges exactly
at iteration two. -/
def KC3 : Kernels :=
  { fexp := fun q => if q = -33075 / 7793 then 1 / 2 else 1
    fsqrt := fun _ => 1
    fpi := 3
    fchi2pdf := fun _ _ => 0 }

/-- Eight-sample stereo block on which the chi-square statistic of the
second iteration is strictly below that of the first iteration. -/
def B3 : List ℚ :=
  [-62 / 20, 59 / 20, -78 / 20, -12 / 20, -47 / 20, -27 / 20, -37 / 20, 48 / 20]

/-- The concatenated data vector of the run on B3. -/
def C3data : List ℚ := evens B3 ++ odds B3

/-- The variance vector of the run on B3. -/
def C3dv : List ℚ := dataVariance B3

/-- The initial evidence of the run on B3. -/
def C3ie : List ℚ := initialEvidence KC3 C3dv

/-! ### Termination of the smoothing loop -/

/-- A converged state is a fixed point of the fuel-bounded run. -/
lemma runAux_of_converged (K : Kernels) (data dv ie : List ℚ) :
    ∀ (f : ℕ) (s : SmootherState), s.converged = true →
      runAux K data dv ie f s = s
  | 0, _, _ => rfl
  | f + 1, s, h => by simp [runAux, h]

/-- Splitting the fuel of a run into two stages. -/
lemma runAux_add (K : Kernels) (data dv ie : List ℚ) :
    ∀ (a b : ℕ) (s : SmootherState),
      runAux K data dv ie (a + b) s =
        runAux K data dv ie b (runAux K data dv ie a s)
  | 0, b, s => by rw [Nat.zero_add]; rfl
  | a + 1, b, s => by
      rcases hc : s.converged with _ | _
      · rw [show a + 1 + b = (a + b) + 1 by omega]
        simp only [runAux, hc, if_neg Bool.false_ne_true]
        exact runAux_add K data dv ie a b (step K data dv ie s)
      · rw [runAux_of_converged K data dv ie _ s hc,
          runAux_of_converged K data dv ie _ s hc,
          runAux_of_converged K data dv ie _ s hc]

/-- The loop body increments the iteration counter. -/
lemma iterState_iteration (K : Kernels) (data dv : List ℚ) (s : SmootherState) :
    (iterState K data dv s).iteration = s.iteration + 1 := rfl

/-- Folding the iteration-zero model keeps the iteration counter. -/
lemma foldZero_iteration (data ie : List ℚ) (t : SmootherState) :
    (foldZero data ie t).iteration = t.iteration := rfl

/-- Folding the iteration-zero model sets the converged flag. -/
lemma foldZero_converged (data ie : List ℚ) (t : SmootherState) :
    (foldZero data ie t).converged = true := rfl

/-- On an unconverged state, a step is the loop body followed by the
convergence test, folding in the iteration-zero model on success. -/
lemma step_of_not_converged (K : Kernels) (data dv ie : List ℚ)
    (s : SmootherState) (h : s.converged = false) :
    step K data dv ie s =
      if ((data.length : ℚ) < (iterState K data dv s).chi2_data ∧
            0 ≤ (iterState K data dv s).chi2_pdf_derivative -
              s.chi2_pdf_derivative) ∧
          mean (iterState K data dv s).evidence - mean s.evidence < 0 ∨
          128 < (iterState K data dv s).iteration
      then foldZero data ie (iterState K data dv s)
      else iterState K data dv s := by
  unfold step
  rw [if_neg (by simp [h])]

/-- A step from an unconverged state increments the iteration counter,
and can only leave the state unconverged when the new count is within
the cap of 128. -/
lemma step_iteration (K : Kernels) (data dv ie : List ℚ) (s : SmootherState)
    (h : s.converged = false) :
    (step K data dv ie s).iteration = s.iteration + 1 ∧
    ((step K data dv ie s).converged = false → s.iteration + 1 ≤ 128) := by
  rw [step_of_not_converged K data dv ie s h]
  split
  · refine ⟨rfl, fun hcf => ?_⟩
    rw [foldZero_converged] at hcf
    cases hcf
  · rename_i hcond
    refine ⟨rfl, fun _ => ?_⟩
    rcases not_or.mp hcond with ⟨-, hle⟩
    rw [iterState_iteration] at hle
    omega

/-- Unfolding one unit of fuel on an unconverged state. -/
lemma runAux_succ (K : Kernels) (data dv ie : List ℚ) (f : ℕ)
    (s : SmootherState) (h : s.converged = false) :
    runAux K data dv ie (f + 1) s =
      runAux K data dv ie f (step K data dv ie s) := by
  simp [runAux, h]

/-- An unconverged run of f steps performs exactly f iterations. -/
lemma runAux_iteration (K : Kernels) (data dv ie : List ℚ) :
    ∀ (f : ℕ) (s : SmootherState),
      (runAux K data dv ie f s).converged = false →
      s.converged = false ∧
        (runAux K data dv ie f s).iteration = s.iteration + f
  | 0, s, h => ⟨h, rfl⟩
  | f + 1, s, h => by
      rcases hc : s.converged with _ | _
      · rw [runAux_succ K data dv ie f s hc] at h ⊢
        obtain ⟨h1, h2⟩ := runAux_iteration K data dv ie f (step K data dv ie s) h
        refine ⟨rfl, ?_⟩
        rw [h2, (step_iteration K data dv ie s hc).1]
        omega
      · rw [runAux_of_converged K data dv ie _ s hc] at h
        rw [h] at hc
        cases hc

/-- The run of the loop with fuel 129 always ends converged. -/
lemma run_converged (K : Kernels) (data dv ie : List ℚ) :
    (runAux K data dv ie 129 (initState data dv ie)).converged = true := by
  by_contra hne
  have h : (runAux K data dv ie 129 (initState data dv ie)).converged = false :=
    Bool.not_eq_true _ |>.mp hne
  rw [show (129 : ℕ) = 128 + 1 by rfl, runAux_add] at h
  set m := runAux K data dv ie 128 (initState data dv ie) with hm
  rcases hc : m.converged with _ | _
  · obtain ⟨-, hit⟩ := runAux_iteration K data dv ie 128 (initState data dv ie)
      (by rw [← hm]; exact hc)
    simp only [runAux, hc, if_neg Bool.false_ne_true] at h
    obtain ⟨hstep, hcap⟩ := step_iteration K data dv ie m hc
    have := hcap h
    rw [← hm] at hit
    simp [initState] at hit
    omega
  · rw [runAux_of_converged K data dv ie _ m hc] at h
    rw [h] at hc
    cases hc

/-- The iteration counter never exceeds 129 along the run. -/
lemma runAux_iteration_le (K : Kernels) (data dv ie : List ℚ) :
    ∀ (f : ℕ) (s : SmootherState), s.iteration ≤ 129 →
      (s.converged = false → s.iteration ≤ 128) →
      (runAux K data dv ie f s).iteration ≤ 129
  | 0, s, h1, h2 => h1
  | f + 1, s, h1, h2 => by
      rcases hc : s.converged with _ | _
      · simp only [runAux, hc, if_neg Bool.false_ne_true]
        obtain ⟨hstep, hcap⟩ := step_iteration K data dv ie s hc
        exact runAux_iteration_le K data dv ie f (step K data dv ie s)
          (by rw [hstep]; exact Nat.add_le_of_le_sub (by omega) (h2 hc))
          (fun hc2 => by rw [hstep]; exact hcap hc2)
      · rw [runAux_of_converged K data dv ie _ s hc]
        exact h1

/-- Claim C4: for every finite input with strictly positive variance
estimates (and indeed for every input), the smoothing loop terminates:
with fuel 129 the run ends in the Converged state after at most 129
iterations (the cap of 128 plus one), and granting any further fuel
does not change the result. -/
theorem C4_termination (K : Kernels) (data dv ie : List ℚ)
    (hdv : ∀ x ∈ dv, 0 < x) :
    (runAux K data dv ie 129 (initState data dv ie)).converged = true ∧
    (runAux K data dv ie 129 (initState data dv ie)).iteration ≤ 129 ∧
    ∀ f, 129 ≤ f →
      runAux K data dv ie f (initState data dv ie) =
        runAux K data dv ie 129 (initState data dv ie) := by
  refine ⟨run_converged K data dv ie, ?_, ?_⟩
  · exact runAux_iteration_le K data dv ie 129 (initState data dv ie)
      (by simp [initState]) (by simp [initState])
  · intro f hf
    obtain ⟨e, rfl⟩ := Nat.exists_eq_add_of_le hf
    rw [runAux_add]
    exact runAux_of_converged K data dv ie e _ (run_converged K data dv ie)

/-- Witness for C4 on a concrete block of eight samples with unit
variances. -/
theorem C4_termination_witness :
    (∀ x ∈ List.replicate 8 (1 : ℚ), 0 < x) ∧
    ((runAux Kdemo (List.replicate 8 2) (List.replicate 8 1) (List.replicate 8 1)
        129 (initState (List.replicate 8 2) (List.replicate 8 1)
          (List.replicate 8 1))).converged = true ∧
      (runAux Kdemo (List.replicate 8 2) (List.replicate 8 1) (List.replicate 8 1)
        129 (initState (List.replicate 8 2) (List.replicate 8 1)
          (List.replicate 8 1))).iteration ≤ 129 ∧
      ∀ f, 129 ≤ f →
        runAux Kdemo (List.replicate 8 2) (List.replicate 8 1) (List.replicate 8 1)
            f (initState (List.replicate 8 2) (List.replicate 8 1)
              (List.replicate 8 1)) =
          runAux Kdemo (List.replicate 8 2) (List.replicate 8 1)
            (List.replicate 8 1) 129
            (initState (List.replicate 8 2) (List.replicate 8 1)
              (List.replicate 8 1))) :=
  ⟨by decide, C4_termination Kdemo (List.replicate 8 2) (List.replicate 8 1)
    (List.replicate 8 1) (by decide)⟩



/-! ### Positivity of the posterior variance -/

/-- The harmonic Bayes combination of two strictly positive variances is
strictly positive. -/
lemma bayesVariance_pos {pv dv : ℚ} (hp : 0 < pv) (hd : 0 < dv) :
    0 < bayesVariance pv dv := by
  unfold bayesVariance
  have h1 : 0 < 1 / pv := by positivity
  have h2 : 0 < 1 / dv := by positivity
  positivity

/-- The Bayes update keeps elementwise positivity of the variance
vector. -/
lemma zipWith_bayesVariance_pos :
    ∀ {l l' : List ℚ}, (∀ x ∈ l, 0 < x) → (∀ x ∈ l', 0 < x) →
      ∀ x ∈ List.zipWith bayesVariance l l', 0 < x
  | [], _, _, _, x, hx => by simp at hx
  | _ :: _, [], _, _, x, hx => by simp at hx
  | a :: l, b :: l', hl, hl', x, hx => by
      rcases (by simpa using hx : x = bayesVariance a b ∨ x ∈ _) with h | h
      · rw [h]
        exact bayesVariance_pos (hl a (by simp)) (hl' b (by simp))
      · exact zipWith_bayesVariance_pos (fun y hy => hl y (by simp [hy]))
          (fun y hy => hl' y (by simp [hy])) x h

/-- A step preserves elementwise positivity of the posterior variance,
given positive data variances. -/
lemma step_posterior_variance_pos (K : Kernels) (data dv ie : List ℚ)
    (s : SmootherState) (hdv : ∀ x ∈ dv, 0 < x)
    (hs : ∀ x ∈ s.posterior_variance, 0 < x) :
    ∀ x ∈ (step K data dv ie s).posterior_variance, 0 < x := by
  rcases hc : s.converged with _ | _
  · rw [step_of_not_converged K data dv ie s hc]
    have hpos : ∀ x ∈ (iterState K data dv s).posterior_variance, 0 < x :=
      zipWith_bayesVariance_pos hs hdv
    split
    · exact hpos
    · exact hpos
  · rw [step, if_pos hc]
    exact hs

/-- Every state along a run keeps elementwise positivity of the
posterior variance, given positive data variances. -/
lemma runAux_posterior_variance_pos (K : Kernels) (data dv ie : List ℚ)
    (hdv : ∀ x ∈ dv, 0 < x) :
    ∀ (f : ℕ) (s : SmootherState), (∀ x ∈ s.posterior_variance, 0 < x) →
      ∀ x ∈ (runAux K data dv ie f s).posterior_variance, 0 < x
  | 0, s, hs => hs
  | f + 1, s, hs => by
      rcases hc : s.converged with _ | _
      · rw [runAux_succ K data dv ie f s hc]
        exact runAux_posterior_variance_pos K data dv ie hdv f _
          (step_posterior_variance_pos K data dv ie s hdv hs)
      · rw [runAux_of_converged K data dv ie _ s hc]
        exact hs

/-- Claim C8: whenever the prior and data variances at a sample are both
strictly positive, the Bayes update 1 / (1 / prior + 1 / data) is
strictly positive, and consequently every iterate of a run started from
strictly positive data variances keeps a strictly positive posterior
variance at every sample. -/
theorem C8_posterior_variance_positive (K : Kernels) (data dv ie : List ℚ)
    (f : ℕ) (hdv : ∀ x ∈ dv, 0 < x) :
    (∀ pv q : ℚ, 0 < pv → 0 < q → 0 < bayesVariance pv q) ∧
    ∀ x ∈ (runAux K data dv ie f (initState data dv ie)).posterior_variance,
      0 < x := by
  refine ⟨fun pv q hp hq => bayesVariance_pos hp hq, ?_⟩
  exact runAux_posterior_variance_pos K data dv ie hdv f (initState data dv ie)
    (by simpa [initState] using hdv)

/-- Witness for C8 on a concrete run with unit variances, after the full
fuel of 129. -/
theorem C8_posterior_variance_positive_witness :
    (∀ pv q : ℚ, 0 < pv → 0 < q → 0 < bayesVariance pv q) ∧
    ∀ x ∈ (runAux Kdemo (List.replicate 8 2) (List.replicate 8 1)
        (List.replicate 8 1) 129
        (initState (List.replicate 8 2) (List.replicate 8 1)
          (List.replicate 8 1))).posterior_variance, 0 < x :=
  C8_posterior_variance_positive Kdemo (List.replicate 8 2) (List.replicate 8 1)
    (List.replicate 8 1) 129 (by decide)


/-! ### Channel coupling of the smoothing loop -/

/-- Claim C1 fails on the code: blocks B1 and B2 have identical left
channels, yet the denoised left-channel outputs differ (at left sample
three the run on B1 yields -18 and the run on B2 yields -17), because
the smoother runs once over the concatenated channels and the
neighbour-averaged prior couples them at the seam.  Both runs are fully
evaluated; the explicit output blocks are recorded for inspection. -/
theorem C1_counterexample :
    evens B1 = evens B2 ∧
    fabada1x Kdemo B1 = [20, 18, -18, -18, 18, 18, -18, -20] ∧
    fabada1x Kdemo B2 = [20, 40, -18, -17, 18, 16, -17, -18] ∧
    evens (fabada1x Kdemo B1) ≠ evens (fabada1x Kdemo B2) := by
  exact ⟨by decide, by decide, by decide, by decide⟩

/-- Claim C1 amended: only the noise-variance estimation is per-channel
independent.  The left half of the variance vector is unchanged under
any change of the right channel; the smoothing loop itself processes the
concatenated channels jointly, so denoised left outputs may depend on
right inputs. -/
theorem C1_variance_independence (b b2 : List ℚ) (h : evens b = evens b2)
    (hn : (evens b).length ≤ 32768) :
    (dataVariance b).take (evens b).length =
      (dataVariance b2).take (evens b).length := by
  have h2 : (evens b2).length = (evens b).length := by rw [h]
  calc (dataVariance b).take (evens b).length
      = chanVariance (evens b) := by
        rw [dataVariance_eq_append b, ← chanVariance_length (evens b) hn,
          List.take_left]
    _ = chanVariance (evens b2) := by rw [h]
    _ = (dataVariance b2).take (evens b).length := by
        rw [dataVariance_eq_append b2, ← h2,
          ← chanVariance_length (evens b2) (by rw [h2]; exact hn),
          List.take_left]

/-- Witness for the amended C1 at the concrete blocks B1 and B2. -/
theorem C1_variance_independence_witness :
    (dataVariance B1).take (evens B1).length =
      (dataVariance B2).take (evens B1).length :=
  C1_variance_independence B1 B2 (by decide) (by decide)

/-! ### The chi-square minimum used by the iteration-zero fold -/

/-- At the first iteration the loop records the current chi-square as
chi2_data_min. -/
lemma iterState_chi2_min_first (K : Kernels) (data dv : List ℚ)
    (s : SmootherState) (h : s.iteration = 0) :
    (iterState K data dv s).chi2_data_min = (iterState K data dv s).chi2_data := by
  simp [iterState, h]

/-- After the first iteration the recorded chi2_data_min never
changes. -/
lemma iterState_chi2_min_later (K : Kernels) (data dv : List ℚ)
    (s : SmootherState) (h : s.iteration ≠ 0) :
    (iterState K data dv s).chi2_data_min = s.chi2_data_min := by
  have hh : s.iteration + 1 ≠ 1 := by omega
  simp [iterState, hh]

/-- The convergence test does not alter the recorded chi2_data_min. -/
lemma step_chi2_min (K : Kernels) (data dv ie : List ℚ) (s : SmootherState)
    (h : s.converged = false) :
    (step K data dv ie s).chi2_data_min = (iterState K data dv s).chi2_data_min := by
  rw [step_of_not_converged K data dv ie s h]
  split
  · rfl
  · rfl

/-- The convergence test does not alter the current chi-square. -/
lemma step_chi2_data (K : Kernels) (data dv ie : List ℚ) (s : SmootherState)
    (h : s.converged = false) :
    (step K data dv ie s).chi2_data = (iterState K data dv s).chi2_data := by
  rw [step_of_not_converged K data dv ie s h]
  split
  · rfl
  · rfl

/-- From any state past the first iteration, the recorded chi2_data_min
stays fixed for the rest of the run, and the iteration count stays
positive. -/
lemma runAux_chi2_min_stable (K : Kernels) (data dv ie : List ℚ) :
    ∀ (f : ℕ) (s : SmootherState), 1 ≤ s.iteration →
      (runAux K data dv ie f s).chi2_data_min = s.chi2_data_min
  | 0, s, _ => rfl
  | f + 1, s, h => by
      rcases hc : s.converged with _ | _
      · rw [runAux_succ K data dv ie f s hc]
        have h1 : (step K data dv ie s).iteration = s.iteration + 1 :=
          (step_iteration K data dv ie s hc).1
        rw [runAux_chi2_min_stable K data dv ie f (step K data dv ie s) (by omega),
          step_chi2_min K data dv ie s hc,
          iterState_chi2_min_later K data dv s (by omega)]
      · rw [runAux_of_converged K data dv ie _ s hc]

/-- The chi2_data_min of the finished run is the chi-square computed at
the first iteration. -/
lemma run_chi2_min (K : Kernels) (data dv ie : List ℚ) :
    (runAux K data dv ie 129 (initState data dv ie)).chi2_data_min =
      (step K data dv ie (initState data dv ie)).chi2_data := by
  have h0 : (initState data dv ie).converged = false := rfl
  have hs1 : runAux K data dv ie 1 (initState data dv ie) =
      step K data dv ie (initState data dv ie) := by
    rw [runAux_succ K data dv ie 0 _ h0]
    rfl
  have h1 : (step K data dv ie (initState data dv ie)).iteration = 1 :=
    (step_iteration K data dv ie _ h0).1
  rw [show (129 : ℕ) = 1 + 128 by rfl, runAux_add, hs1,
    runAux_chi2_min_stable K data dv ie 128 _ (by omega),
    step_chi2_min K data dv ie _ h0, step_chi2_data K data dv ie _ h0,
    iterState_chi2_min_first K data dv _ rfl]

/-- Once a run from the initial state is converged it stays converged
with more fuel. -/
lemma runAux_converged_mono (K : Kernels) (data dv ie : List ℚ)
    (a b : ℕ) (hab : a ≤ b)
    (h : (runAux K data dv ie a (initState data dv ie)).converged = true) :
    (runAux K data dv ie b (initState data dv ie)).converged = true := by
  obtain ⟨e, rfl⟩ := Nat.exists_eq_add_of_le hab
  rw [runAux_add, runAux_of_converged K data dv ie e _ h]
  exact h

/-- A step that sets the converged flag is exactly the loop body
followed by the iteration-zero fold. -/
lemma step_fold (K : Kernels) (data dv ie : List ℚ) (s : SmootherState)
    (h : s.converged = false) (h2 : (step K data dv ie s).converged = true) :
    step K data dv ie s = foldZero data ie (iterState K data dv s) := by
  rw [step_of_not_converged K data dv ie s h] at h2 ⊢
  by_cases hC : ((data.length : ℚ) < (iterState K data dv s).chi2_data ∧
      0 ≤ (iterState K data dv s).chi2_pdf_derivative - s.chi2_pdf_derivative) ∧
      mean (iterState K data dv s).evidence - mean s.evidence < 0 ∨
      128 < (iterState K data dv s).iteration
  · rw [if_pos hC]
  · rw [if_neg hC] at h2
    cases h2

/-- Claim C3, amended: every run converges; the value chi2_data_min
used by the iteration-zero fold is the chi-square recorded at iteration
one (not necessarily the minimum over the run); the Converged state is
entered exactly once; and on that single transition the fold adds the
initial evidence weighted by chi2_data_min to the ensemble weight, and
the same weight times the raw data to the ensemble model. -/
theorem C3_iteration_zero_fold (K : Kernels) (data dv ie : List ℚ) :
    (runAux K data dv ie 129 (initState data dv ie)).converged = true ∧
    (runAux K data dv ie 129 (initState data dv ie)).chi2_data_min =
      (step K data dv ie (initState data dv ie)).chi2_data ∧
    (∃ k, k < 129 ∧
      (runAux K data dv ie k (initState data dv ie)).converged = false ∧
      (runAux K data dv ie (k + 1) (initState data dv ie)).converged = true ∧
      ∀ j, (runAux K data dv ie j (initState data dv ie)).converged = false →
        (runAux K data dv ie (j + 1) (initState data dv ie)).converged = true →
        j = k) ∧
    ∀ s, s.converged = false → (step K data dv ie s).converged = true →
      step K data dv ie s = foldZero data ie (iterState K data dv s) ∧
      (step K data dv ie s).bayesian_weight =
        List.zipWith (fun a b => a + b) (iterState K data dv s).bayesian_weight
          (ie.map (fun e => e * (step K data dv ie s).chi2_data_min)) ∧
      (step K data dv ie s).bayesian_model =
        List.zipWith (fun a b => a + b) (iterState K data dv s).bayesian_model
          (List.zipWith (fun a b => a * b)
            (ie.map (fun e => e * (step K data dv ie s).chi2_data_min)) data) := by
  refine ⟨run_converged K data dv ie, run_chi2_min K data dv ie, ?_, ?_⟩
  · have hP : ∃ j, (runAux K data dv ie (j + 1) (initState data dv ie)).converged
        = true := ⟨128, run_converged K data dv ie⟩
    refine ⟨Nat.find hP, ?_, ?_, Nat.find_spec hP, ?_⟩
    · have := Nat.find_le (run_converged K data dv ie : (runAux K data dv ie
        (128 + 1) (initState data dv ie)).converged = true) (h := hP)
      omega
    · rcases hk : Nat.find hP with _ | j
      · rfl
      · have hmin := Nat.find_min hP (by omega : j < Nat.find hP)
        exact Bool.not_eq_true _ |>.mp hmin
    · intro j hj1 hj2
      rcases lt_trichotomy j (Nat.find hP) with hlt | heq | hgt
      · exact absurd hj2 (Nat.find_min hP hlt)
      · exact heq
      · have := runAux_converged_mono K data dv ie (Nat.find hP + 1) j
          (by omega) (Nat.find_spec hP)
        rw [hj1] at this
        cases this
  · intro s hs hs2
    have hf := step_fold K data dv ie s hs hs2
    have hmin := step_chi2_min K data dv ie s hs
    refine ⟨hf, ?_, ?_⟩
    · rw [hf]
      rfl
    · rw [hf]
      rfl

/-- The state of the run on block B3 after its first iteration. -/
def C3s1 : SmootherState := runAux KC3 C3data C3dv C3ie 1 (initState C3data C3dv C3ie)

/-- Witness for the amended C3: on the concrete run on block B3 the
transition to the Converged state happens at the second step, and it is
the loop body followed by the iteration-zero fold. -/
theorem C3_iteration_zero_fold_witness :
    (runAux KC3 C3data C3dv C3ie 129 (initState C3data C3dv C3ie)).converged
      = true ∧
    C3s1.converged = false ∧
    (step KC3 C3data C3dv C3ie C3s1).converged = true ∧
    step KC3 C3data C3dv C3ie C3s1 = foldZero C3data C3ie (iterState KC3 C3data C3dv C3s1) :=
  ⟨(C3_iteration_zero_fold KC3 C3data C3dv C3ie).1, by decide, by decide,
   ((C3_iteration_zero_fold KC3 C3data C3dv C3ie).2.2.2 C3s1 (by decide)
     (by decide)).1⟩

/-- Claim C3 fails as stated: on block B3 with kernels KC3 the run
converges at iteration two, the chi-square observed at that final
iteration is strictly below the recorded chi2_data_min (the iteration-one
value) that the fold uses, and therefore the folded weights differ from
initial evidence times the minimum chi-square observed across the run. -/
theorem C3_counterexample :
    (smootherRun KC3 B3).converged = true ∧
    (smootherRun KC3 B3).iteration = 2 ∧
    (smootherRun KC3 B3).chi2_data < (smootherRun KC3 B3).chi2_data_min ∧
    C3ie.map (fun e => e * (smootherRun KC3 B3).chi2_data_min) ≠
      C3ie.map (fun e => e *
        min (smootherRun KC3 B3).chi2_data (smootherRun KC3 B3).chi2_data_min) := by
  exact ⟨by decide, by decide, by decide, by decide⟩

end Fabada
